import Mathlib

/-!
Shallow embedding of the layered UTXO cache of `src/coins.cpp`
(namecoin-core): the coin view cache `CCoinsViewCache` with its
DIRTY/FRESH per-entry bookkeeping, the merge routine `BatchWrite`,
`Flush`, and the name-cache operations `SetName` / `GetName`.

The cache map `CCoinsMap` (a `std::unordered_map`) is embedded as an
association list with first-occurrence lookup/replace/erase semantics;
the parent view (`base`) is an abstract lookup function, matching the
`bool GetCoin(outpoint, coin&)` contract (`none` models a `false`
return).  Primitives declared in headers that are not part of the
sources (`Coin`, `CTxOut`, script helpers, `CNameCache` internals) are
modelled from the spec and carry doc comments saying so.
-/

namespace CoinsSpec

/-! ### Association-list maps (embedding of `std::map` / `std::unordered_map`) -/

section MapOps

variable {α β : Type} [DecidableEq α]

/-- Lookup of the first entry with the given key (models `map.find`). -/
def mfind (k : α) : List (α × β) → Option β
  | [] => none
  | kv :: rest => if kv.1 = k then some kv.2 else mfind k rest

/-- Insert-or-replace at the given key (models `map[k] = v` / `emplace` plus
assignment through the returned iterator). -/
def minsert (k : α) (v : β) : List (α × β) → List (α × β)
  | [] => [(k, v)]
  | kv :: rest => if kv.1 = k then (k, v) :: rest else kv :: minsert k v rest

/-- Erase the entry with the given key (models `map.erase(it)`). -/
def merase (k : α) : List (α × β) → List (α × β)
  | [] => []
  | kv :: rest => if kv.1 = k then rest else kv :: merase k rest

/-- Key uniqueness, the representation invariant of a real `std::map`. -/
def nodupKeys (m : List (α × β)) : Prop := (m.map Prod.fst).Nodup

instance (m : List (α × β)) : Decidable (nodupKeys m) := by
  unfold nodupKeys; infer_instance

/-- Sum of a measure over all mapped values (models iterating the map). -/
def msum (f : β → Int) : List (α × β) → Int
  | [] => 0
  | kv :: rest => f kv.2 + msum f rest

theorem mfind_minsert_self (k : α) (v : β) (m : List (α × β)) :
    mfind k (minsert k v m) = some v := by
  induction m with
  | nil => simp [mfind, minsert]
  | cons kv rest ih =>
    by_cases h : kv.1 = k <;> simp [mfind, minsert, h, ih]

theorem mfind_minsert_ne (k k' : α) (v : β) (m : List (α × β)) (h : k' ≠ k) :
    mfind k' (minsert k v m) = mfind k' m := by
  induction m with
  | nil =>
    simp only [minsert, mfind]
    rw [if_neg (Ne.symm h)]
  | cons kv rest ih =>
    by_cases hk : kv.1 = k
    · subst hk
      simp only [minsert, if_pos rfl, mfind]
      rw [if_neg (Ne.symm h), if_neg (Ne.symm h)]
    · simp only [minsert, if_neg hk, mfind, ih]

theorem mfind_merase_ne (k k' : α) (m : List (α × β)) (h : k' ≠ k) :
    mfind k' (merase k m) = mfind k' m := by
  induction m with
  | nil => simp [merase]
  | cons kv rest ih =>
    by_cases hk : kv.1 = k
    · subst hk
      simp [merase, mfind, Ne.symm h]
    · simp only [merase, if_neg hk, mfind, ih]

theorem mem_keys_of_mfind {k : α} {v : β} {m : List (α × β)}
    (h : mfind k m = some v) : k ∈ m.map Prod.fst := by
  induction m with
  | nil => simp [mfind] at h
  | cons kv rest ih =>
    by_cases hk : kv.1 = k
    · simp [hk]
    · simp [mfind, hk] at h
      simp [ih h]

theorem mfind_merase_self (k : α) (m : List (α × β)) (h : nodupKeys m) :
    mfind k (merase k m) = none := by
  induction m with
  | nil => simp [merase, mfind]
  | cons kv rest ih =>
    unfold nodupKeys at h
    simp only [List.map_cons, List.nodup_cons] at h
    by_cases hk : kv.1 = k
    · subst hk
      simp only [merase, if_pos rfl]
      cases hf : mfind kv.1 rest with
      | none => exact hf
      | some w => exact absurd (mem_keys_of_mfind hf) h.1
    · simp only [merase, if_neg hk, mfind, if_neg hk]
      exact ih h.2

theorem mem_minsert {kv : α × β} {k : α} {v : β} {m : List (α × β)}
    (h : kv ∈ minsert k v m) : kv = (k, v) ∨ kv ∈ m := by
  induction m with
  | nil =>
    simp only [minsert, List.mem_singleton] at h
    exact Or.inl h
  | cons kv' rest ih =>
    by_cases hk : kv'.1 = k
    · simp only [minsert, if_pos hk, List.mem_cons] at h
      rcases h with h | h
      · exact Or.inl h
      · exact Or.inr (List.mem_cons_of_mem _ h)
    · simp only [minsert, if_neg hk, List.mem_cons] at h
      rcases h with h | h
      · exact Or.inr (by simp [h])
      · rcases ih h with h' | h'
        · exact Or.inl h'
        · exact Or.inr (List.mem_cons_of_mem _ h')

theorem mem_merase {kv : α × β} {k : α} {m : List (α × β)}
    (h : kv ∈ merase k m) : kv ∈ m := by
  induction m with
  | nil =>
    simp only [merase] at h
    exact h
  | cons kv' rest ih =>
    by_cases hk : kv'.1 = k
    · simp only [merase, if_pos hk] at h
      exact List.mem_cons_of_mem _ h
    · simp only [merase, if_neg hk, List.mem_cons] at h
      rcases h with h | h
      · simp [h]
      · exact List.mem_cons_of_mem _ (ih h)

theorem mem_keys_minsert {k' k : α} {v : β} {m : List (α × β)}
    (h : k' ∈ (minsert k v m).map Prod.fst) :
    k' = k ∨ k' ∈ m.map Prod.fst := by
  simp only [List.mem_map] at h
  rcases h with ⟨kv, hmem, hfst⟩
  rcases mem_minsert hmem with h' | h'
  · subst h'
    exact Or.inl hfst.symm
  · exact Or.inr (List.mem_map.mpr ⟨kv, h', hfst⟩)

theorem nodupKeys_minsert (k : α) (v : β) (m : List (α × β))
    (h : nodupKeys m) : nodupKeys (minsert k v m) := by
  induction m with
  | nil => simp [minsert, nodupKeys]
  | cons kv rest ih =>
    unfold nodupKeys at h ⊢
    simp only [List.map_cons, List.nodup_cons] at h
    by_cases hk : kv.1 = k
    · subst hk
      simpa [minsert, List.nodup_cons] using h
    · simp only [minsert, if_neg hk, List.map_cons, List.nodup_cons]
      refine ⟨fun hmem => ?_, ih h.2⟩
      rcases mem_keys_minsert hmem with h' | h'
      · exact hk h'
      · exact h.1 h'

theorem msum_minsert (f : β → Int) (k : α) (v : β) (m : List (α × β)) :
    msum f (minsert k v m) =
      msum f m + f v - (match mfind k m with | some w => f w | none => 0) := by
  induction m with
  | nil => simp [minsert, msum, mfind]
  | cons kv rest ih =>
    by_cases hk : kv.1 = k
    · simp only [minsert, if_pos hk, msum, mfind]
      ring
    · simp only [minsert, if_neg hk, msum, mfind]
      rw [ih]
      ring

theorem msum_merase (f : β → Int) (k : α) (m : List (α × β)) :
    msum f (merase k m) =
      msum f m - (match mfind k m with | some w => f w | none => 0) := by
  induction m with
  | nil => simp [merase, msum, mfind]
  | cons kv rest ih =>
    by_cases hk : kv.1 = k
    · simp only [merase, if_pos hk, msum, mfind]
      ring
    · simp only [merase, if_neg hk, msum, mfind]
      rw [ih]
      ring

theorem mfind_mem {k : α} {v : β} {m : List (α × β)}
    (h : mfind k m = some v) : (k, v) ∈ m := by
  induction m with
  | nil => simp [mfind] at h
  | cons kv rest ih =>
    by_cases hk : kv.1 = k
    · simp only [mfind, if_pos hk] at h
      obtain ⟨a, b⟩ := kv
      obtain rfl : b = v := Option.some.inj h
      obtain rfl : a = k := hk
      exact List.mem_cons_self _ _
    · simp only [mfind, if_neg hk] at h
      exact List.mem_cons_of_mem _ (ih h)

end MapOps

/-! ### Data model (`COutPoint`, `Coin`, cache entries) -/

/-- Modelled from the spec: an outpoint is a pair of transaction hash
(256-bit, elided to `Nat`) and output index (the class itself lives in a
header outside the sources). -/
structure COutPoint where
  hash : Nat
  n : Nat
deriving DecidableEq, Repr

/-- Modelled from the spec: a transaction output is a value in integer base
units plus a locking script as a byte string. -/
structure CTxOut where
  nValue : Int
  scriptPubKey : List Nat
deriving DecidableEq, Repr

/-- Modelled from the spec: the sentinel to which a spent output is cleared
(value and script reset). -/
def CTxOut.null : CTxOut := { nValue := -1, scriptPubKey := [] }

/-- Modelled from the spec: unspendable scripts are those provably
unredeemable, e.g. starting with a specific opcode (`OP_RETURN`, byte 106). -/
def CScript.IsUnspendable (s : List Nat) : Bool :=
  match s with
  | [] => false
  | op :: _ => decide (op = 106)

/-- Modelled from the spec: a coin is a `TxOut` plus creation height and a
coinbase flag. -/
structure Coin where
  out : CTxOut
  fCoinBase : Bool
  nHeight : Nat
deriving DecidableEq, Repr

/-- Modelled from the spec: the default-constructed (empty) coin, which
reads as spent. -/
def Coin.emptyCoin : Coin := { out := CTxOut.null, fCoinBase := false, nHeight := 0 }

/-- Modelled from the spec: the `spent` predicate is defined by the
sentinel output value. -/
def Coin.IsSpent (c : Coin) : Bool := decide (c.out = CTxOut.null)

/-- Modelled from the spec: `Clear` resets the coin to the empty sentinel. -/
def Coin.Clear (_ : Coin) : Coin := Coin.emptyCoin

/-- Modelled from the spec: `DynamicMemoryUsage` counts the heap
allocations the coin owns, primarily the script bytes. -/
def Coin.DynamicMemoryUsage (c : Coin) : Int := (c.out.scriptPubKey.length : Int)

/-- A cache entry: a coin together with the `DIRTY` and `FRESH` flags
(`CCoinsCacheEntry` with `flags` split into its two bits). -/
structure CCoinsCacheEntry where
  coin : Coin
  dirty : Bool
  fresh : Bool
deriving DecidableEq, Repr

/-- The map `OutPoint -> CacheEntry` (`CCoinsMap`). -/
abbrev CCoinsMap := List (COutPoint × CCoinsCacheEntry)

/-! ### Name-cache data model (headers outside the sources, modelled from the spec) -/

/-- Raw name bytes (`valtype`). -/
abbrev Name := List Nat

/-- Modelled from the spec: `NameData` is the current record for a name:
value bytes, creation height, and the owning output reference. -/
structure CNameData where
  value : List Nat
  nHeight : Nat
  prevout : COutPoint
deriving DecidableEq, Repr

def CNameData.getHeight (d : CNameData) : Nat := d.nHeight

/-- Modelled from the spec: `NameHistory` is an ordered stack of prior
`NameData` values; the head of the list is the top of the stack. -/
abbrev CNameHistory := List CNameData

/-- Modelled from the spec: push the replaced value onto the history. -/
def CNameHistory.push (h : CNameHistory) (d : CNameData) : CNameHistory := d :: h

/-- Modelled from the spec: pop asserts the popped item equals the
argument; an assertion failure is `none`. -/
def CNameHistory.pop (h : CNameHistory) (expected : CNameData) : Option CNameHistory :=
  match h with
  | [] => none
  | top :: rest => if top = expected then some rest else none

/-- Modelled from the spec: `NameCache` is three overlaid maps — entries
(name to present-with-value or tombstone), history deltas, and the
expire-index delta keyed by (height, name) with an add/remove flag. -/
structure CNameCache where
  entries : List (Name × Option CNameData)
  history : List (Name × CNameHistory)
  expireIndex : List ((Nat × Name) × Bool)
deriving DecidableEq, Repr

namespace CNameCache

def emptyCache : CNameCache := { entries := [], history := [], expireIndex := [] }

/-- Modelled from the spec: value lookup, `none` when absent or tombstoned. -/
def get (nc : CNameCache) (n : Name) : Option CNameData :=
  match mfind n nc.entries with
  | some (some d) => some d
  | _ => none

/-- Modelled from the spec: true only for tombstones. -/
def isDeleted (nc : CNameCache) (n : Name) : Bool :=
  match mfind n nc.entries with
  | some none => true
  | _ => false

/-- Modelled from the spec: record a value for the name. -/
def set (nc : CNameCache) (n : Name) (d : CNameData) : CNameCache :=
  { nc with entries := minsert n (some d) nc.entries }

/-- Modelled from the spec: tombstone the name. -/
def remove (nc : CNameCache) (n : Name) : CNameCache :=
  { nc with entries := minsert n none nc.entries }

/-- Modelled from the spec: history-delta lookup. -/
def getHistory (nc : CNameCache) (n : Name) : Option CNameHistory :=
  mfind n nc.history

/-- Modelled from the spec: record a history delta for the name. -/
def setHistory (nc : CNameCache) (n : Name) (h : CNameHistory) : CNameCache :=
  { nc with history := minsert n h nc.history }

/-- Modelled from the spec: record that the name expires at the height. -/
def addExpireIndex (nc : CNameCache) (n : Name) (h : Nat) : CNameCache :=
  { nc with expireIndex := minsert (h, n) true nc.expireIndex }

/-- Modelled from the spec: record that the name no longer expires at the
height. -/
def removeExpireIndex (nc : CNameCache) (n : Name) (h : Nat) : CNameCache :=
  { nc with expireIndex := minsert (h, n) false nc.expireIndex }

/-- Modelled from the spec: membership overlay of `updateNamesForHeight` —
a cached delta overrides the base expire set. -/
def updateExpire (nc : CNameCache) (baseExp : Nat → Name → Bool) (h : Nat) (n : Name) : Bool :=
  match mfind (h, n) nc.expireIndex with
  | some b => b
  | none => baseExp h n

/-- Modelled from the spec: a name cache with no recorded changes. -/
def isEmpty (nc : CNameCache) : Bool :=
  nc.entries.isEmpty && nc.history.isEmpty && nc.expireIndex.isEmpty

/-- Modelled from the spec: fold a child cache into self — merged entries
(tombstones override), merged histories, and merged expire deltas. -/
def apply (self child : CNameCache) : CNameCache :=
  { entries := child.entries.foldl (fun acc kv => minsert kv.1 kv.2 acc) self.entries,
    history := child.history.foldl (fun acc kv => minsert kv.1 kv.2 acc) self.history,
    expireIndex := child.expireIndex.foldl (fun acc kv => minsert kv.1 kv.2 acc) self.expireIndex }

end CNameCache

/-! ### The cached coin view (`CCoinsViewCache`, from `src/coins.cpp`) -/

/-- The mutable state of a `CCoinsViewCache`: the coins map, the tracked
memory-usage counter (`cachedCoinsUsage`), the cached best-block hash
(`hashBlock`, 0 models the null `uint256()`), and the name cache. -/
structure CCoinsViewCache where
  cacheCoins : CCoinsMap
  cachedCoinsUsage : Int
  hashBlock : Nat
  cacheNames : CNameCache
deriving DecidableEq, Repr

/-- Errors raised by the cache: the two `std::logic_error` throws of
`AddCoin` and `BatchWrite`, plus the entry assertion of `AddCoin`. -/
inductive CoinsError where
  | overwriteUnspent
  | freshMisapplied
  | spentCoinAdded
deriving DecidableEq, Repr

/-- Sum of `DynamicMemoryUsage` over all coins held in the map. -/
def totalCoinUsage (m : CCoinsMap) : Int :=
  msum (fun e => e.coin.DynamicMemoryUsage) m

/-- Invariant 5 of the spec: the tracked counter equals the sum of
`DynamicMemoryUsage` over the coins in the map. -/
def usageOK (st : CCoinsViewCache) : Prop :=
  st.cachedCoinsUsage = totalCoinUsage st.cacheCoins

instance (st : CCoinsViewCache) : Decidable (usageOK st) := by
  unfold usageOK; infer_instance

/-- `CCoinsViewCache::FetchCoin`: return the entry from the map, else read
through to the parent (`base`, modelling `base->GetCoin`; `none` is a
`false` return).  A parent coin that is spent is materialised with the
`FRESH` flag; usage is updated.  Returns the entry found (now present in
the map) and the updated cache. -/
def fetchCoin (base : COutPoint → Option Coin) (st : CCoinsViewCache)
    (o : COutPoint) : Option CCoinsCacheEntry × CCoinsViewCache :=
  match mfind o st.cacheCoins with
  | some e => (some e, st)
  | none =>
    match base o with
    | none => (none, st)
    | some tmp =>
      let e : CCoinsCacheEntry := { coin := tmp, dirty := false, fresh := tmp.IsSpent }
      (some e,
        { st with
          cacheCoins := minsert o e st.cacheCoins,
          cachedCoinsUsage := st.cachedCoinsUsage + tmp.DynamicMemoryUsage })

/-- `CCoinsViewCache::GetCoin`: fetch and return the coin when it is not
spent. -/
def getCoin (base : COutPoint → Option Coin) (st : CCoinsViewCache)
    (o : COutPoint) : Option Coin × CCoinsViewCache :=
  match fetchCoin base st o with
  | (some e, st') => (if e.coin.IsSpent then none else some e.coin, st')
  | (none, st') => (none, st')

/-- `CCoinsViewCache::HaveCoin`: fetch and test for a live entry. -/
def haveCoin (base : COutPoint → Option Coin) (st : CCoinsViewCache)
    (o : COutPoint) : Bool × CCoinsViewCache :=
  match fetchCoin base st o with
  | (some e, st') => (!e.coin.IsSpent, st')
  | (none, st') => (false, st')

/-- `CCoinsViewCache::AccessCoin`: fetch and return the coin, or the empty
sentinel coin on a miss. -/
def accessCoin (base : COutPoint → Option Coin) (st : CCoinsViewCache)
    (o : COutPoint) : Coin × CCoinsViewCache :=
  match fetchCoin base st o with
  | (some e, st') => (e.coin, st')
  | (none, st') => (Coin.emptyCoin, st')

/-- `CCoinsViewCache::HaveCoinInCache`: map lookup without a fetch. -/
def haveCoinInCache (st : CCoinsViewCache) (o : COutPoint) : Bool :=
  match mfind o st.cacheCoins with
  | some e => !e.coin.IsSpent
  | none => false

/-- `CCoinsViewCache::AddCoin`.  The entry assertion (`!coin.IsSpent()`)
and the `OverwriteUnspent` logic error are returned as errors; as in the
source, the usage counter has already been decremented by the existing
entry's coin when `OverwriteUnspent` is raised, and the map is left
untouched in that case.  On the miss path the `emplace` inserts a
default-constructed (spent, flag-free) entry, so the overwrite check
cannot fire and `fresh` is `!possible_overwrite`.  The new flags are
or-ed onto the existing ones (`flags |= DIRTY | (fresh ? FRESH : 0)`). -/
def addCoin (st : CCoinsViewCache) (o : COutPoint) (coin : Coin)
    (possible_overwrite : Bool) : Option CoinsError × CCoinsViewCache :=
  if coin.IsSpent then (some .spentCoinAdded, st)
  else if CScript.IsUnspendable coin.out.scriptPubKey then (none, st)
  else
    match mfind o st.cacheCoins with
    | some it =>
      let usage1 := st.cachedCoinsUsage - it.coin.DynamicMemoryUsage
      if possible_overwrite = false ∧ it.coin.IsSpent = false then
        (some .overwriteUnspent, { st with cachedCoinsUsage := usage1 })
      else
        let fresh : Bool := !possible_overwrite && !it.dirty
        (none,
          { st with
            cacheCoins :=
              minsert o { coin := coin, dirty := true, fresh := it.fresh || fresh }
                st.cacheCoins,
            cachedCoinsUsage := usage1 + coin.DynamicMemoryUsage })
    | none =>
      (none,
        { st with
          cacheCoins :=
            minsert o { coin := coin, dirty := true, fresh := !possible_overwrite }
              st.cacheCoins,
          cachedCoinsUsage := st.cachedCoinsUsage + coin.DynamicMemoryUsage })

/-- `CCoinsViewCache::SpendCoin` (without the optional `moveout`, which
copies the coin out without changing the final cache state): fetch; on a
miss return false; subtract the coin's usage; erase `FRESH` entries
outright, otherwise mark `DIRTY` and clear the coin. -/
def spendCoin (base : COutPoint → Option Coin) (st : CCoinsViewCache)
    (o : COutPoint) : Bool × CCoinsViewCache :=
  match fetchCoin base st o with
  | (none, st') => (false, st')
  | (some e, st') =>
    let st1 := { st' with cachedCoinsUsage := st'.cachedCoinsUsage - e.coin.DynamicMemoryUsage }
    if e.fresh then
      (true, { st1 with cacheCoins := merase o st1.cacheCoins })
    else
      (true,
        { st1 with
          cacheCoins :=
            minsert o { coin := e.coin.Clear, dirty := true, fresh := e.fresh }
              st1.cacheCoins })

/-- `CCoinsViewCache::Uncache`: remove the entry only when its flags are
empty (a pure read-through image), releasing its usage. -/
def uncache (st : CCoinsViewCache) (o : COutPoint) : CCoinsViewCache :=
  match mfind o st.cacheCoins with
  | some e =>
    if e.dirty = false ∧ e.fresh = false then
      { st with
        cacheCoins := merase o st.cacheCoins,
        cachedCoinsUsage := st.cachedCoinsUsage - e.coin.DynamicMemoryUsage }
    else st
  | none => st

/-- `CCoinsViewCache::SetBestBlock`. -/
def setBestBlock (st : CCoinsViewCache) (h : Nat) : CCoinsViewCache :=
  { st with hashBlock := h }

/-- `CCoinsViewCache::GetBestBlock`: when the cached hash is null it is
filled from the parent (`baseBest` models `base->GetBestBlock()`). -/
def getBestBlock (baseBest : Nat) (st : CCoinsViewCache) : Nat × CCoinsViewCache :=
  if st.hashBlock = 0 then (baseBest, { st with hashBlock := baseBest })
  else (st.hashBlock, st)

/-- The body of the `BatchWrite` loop for one child entry: skip non-DIRTY
entries; on a parent miss, drop spent-and-FRESH entries and insert the
rest (carrying `FRESH` up); on a parent hit, raise `FreshAppliedToExisting`
for a FRESH child over a live parent coin, erase a FRESH parent entry
receiving a spent child coin, and otherwise move the coin in and mark
DIRTY without propagating the child's FRESH flag. -/
def batchWriteStep (st : CCoinsViewCache) (p : COutPoint)
    (e : CCoinsCacheEntry) : Option CoinsError × CCoinsViewCache :=
  if e.dirty = false then (none, st)
  else
    match mfind p st.cacheCoins with
    | none =>
      if e.fresh && e.coin.IsSpent then (none, st)
      else
        (none,
          { st with
            cacheCoins :=
              minsert p { coin := e.coin, dirty := true, fresh := e.fresh } st.cacheCoins,
            cachedCoinsUsage := st.cachedCoinsUsage + e.coin.DynamicMemoryUsage })
    | some us =>
      if e.fresh && !us.coin.IsSpent then (some .freshMisapplied, st)
      else if us.fresh && e.coin.IsSpent then
        (none,
          { st with
            cacheCoins := merase p st.cacheCoins,
            cachedCoinsUsage := st.cachedCoinsUsage - us.coin.DynamicMemoryUsage })
      else
        (none,
          { st with
            cacheCoins :=
              minsert p { coin := e.coin, dirty := true, fresh := us.fresh } st.cacheCoins,
            cachedCoinsUsage :=
              st.cachedCoinsUsage - us.coin.DynamicMemoryUsage + e.coin.DynamicMemoryUsage })

/-- The `BatchWrite` loop over the (drained) child map. -/
def batchWriteLoop (st : CCoinsViewCache) :
    List (COutPoint × CCoinsCacheEntry) → Option CoinsError × CCoinsViewCache
  | [] => (none, st)
  | (p, e) :: rest =>
    match batchWriteStep st p e with
    | (some err, st') => (some err, st')
    | (none, st') => batchWriteLoop st' rest

/-- `CCoinsViewCache::BatchWrite`: run the merge loop; only when it
completes are the best-block hash set and the child name cache applied. -/
def batchWrite (st : CCoinsViewCache) (child : List (COutPoint × CCoinsCacheEntry))
    (hashIn : Nat) (names : CNameCache) : Option CoinsError × CCoinsViewCache :=
  match batchWriteLoop st child with
  | (some err, st') => (some err, st')
  | (none, st') =>
    (none, { st' with hashBlock := hashIn, cacheNames := st'.cacheNames.apply names })

/-- `CCoinsViewCache::Flush`: a valid no-op when nothing is cached and the
best block is null; otherwise hand the whole state to the parent's
`BatchWrite` (`bw`) and clear the map, the usage counter and the name
cache.  The parent's write is abstracted as a boolean-returning
function of the state handed down. -/
def flush (bw : CCoinsMap → Nat → CNameCache → Bool) (st : CCoinsViewCache) :
    Bool × CCoinsViewCache :=
  if st.hashBlock = 0 ∧ st.cacheCoins.isEmpty ∧ st.cacheNames.isEmpty then (true, st)
  else
    (bw st.cacheCoins st.hashBlock st.cacheNames,
      { st with cacheCoins := [], cachedCoinsUsage := 0, cacheNames := CNameCache.emptyCache })

/-! ### Name operations of the cached view (from `src/coins.cpp`) -/

/-- `CCoinsViewCache::GetName`: a tombstone hides the name, a cached value
answers, otherwise read through to the parent (`baseName` models
`base->GetName`). -/
def getNameView (baseName : Name → Option CNameData) (st : CCoinsViewCache)
    (n : Name) : Option CNameData :=
  if st.cacheNames.isDeleted n then none
  else
    match st.cacheNames.get n with
    | some d => some d
    | none => baseName n

/-- `CCoinsViewCache::GetNameHistory`: a cached delta answers, otherwise
read through to the parent. -/
def getNameHistoryView (baseHist : Name → Option CNameHistory)
    (st : CCoinsViewCache) (n : Name) : Option CNameHistory :=
  match st.cacheNames.getHistory n with
  | some h => some h
  | none => baseHist n

/-- The effective history stack for a name: a failed `GetNameHistory`
leaves the default-constructed (empty) stack, which is how `SetName`
consumes the result. -/
def nameHistoryOf (baseHist : Name → Option CNameHistory)
    (st : CCoinsViewCache) (n : Name) : CNameHistory :=
  (getNameHistoryView baseHist st n).getD []

/-- Membership view of `GetNamesForHeight`: the base expire set overlaid
with the cached deltas. -/
def expiresAt (baseExp : Nat → Name → Bool) (st : CCoinsViewCache)
    (h : Nat) (n : Name) : Bool :=
  st.cacheNames.updateExpire baseExp h n

/-- `CCoinsViewCache::SetName`.  Reads the prior record; if one exists,
remove its expire entry and — when history tracking (`fNameHistory`) is on
— pop-and-assert on the undo path or push the replaced value on the
forward path; if none exists, `undo` must be false (asserted).  Then store
the data and add its expire entry.  Failed assertions return `none`. -/
def setName (fNameHistory : Bool) (baseName : Name → Option CNameData)
    (baseHist : Name → Option CNameHistory) (st : CCoinsViewCache)
    (n : Name) (d : CNameData) (undo : Bool) : Option CCoinsViewCache :=
  match getNameView baseName st n with
  | some oldData =>
    let nc1 := st.cacheNames.removeExpireIndex n oldData.getHeight
    if fNameHistory then
      let history := (getNameHistoryView baseHist { st with cacheNames := nc1 } n).getD []
      match (if undo then history.pop d else some (history.push oldData)) with
      | none => none
      | some h2 =>
        let nc2 := nc1.setHistory n h2
        some { st with cacheNames := ((nc2.set n d).addExpireIndex n d.getHeight) }
    else
      some { st with cacheNames := ((nc1.set n d).addExpireIndex n d.getHeight) }
  | none =>
    if undo then none
    else some { st with cacheNames := ((st.cacheNames.set n d).addExpireIndex n d.getHeight) }

/-! ### Concrete fixtures for witnesses and counterexamples -/

/-- A sample outpoint. -/
def oA : COutPoint := { hash := 1, n := 0 }

/-- A live coin with a one-byte script. -/
def cA : Coin := { out := { nValue := 10, scriptPubKey := [81] }, fCoinBase := false, nHeight := 7 }

/-- Another live coin, two-byte script. -/
def cB : Coin := { out := { nValue := 20, scriptPubKey := [82, 83] }, fCoinBase := false, nHeight := 8 }

/-- A coin with an unspendable (`OP_RETURN`) script. -/
def cUnsp : Coin := { out := { nValue := 0, scriptPubKey := [106, 1] }, fCoinBase := false, nHeight := 7 }

/-- The empty cache over a fresh view. -/
def stEmpty : CCoinsViewCache :=
  { cacheCoins := [], cachedCoinsUsage := 0, hashBlock := 0, cacheNames := CNameCache.emptyCache }

/-- A cache holding a live, dirty coin at `oA`, with a consistent usage
counter. -/
def stLiveA : CCoinsViewCache :=
  { cacheCoins := [(oA, { coin := cA, dirty := true, fresh := false })],
    cachedCoinsUsage := 1, hashBlock := 0, cacheNames := CNameCache.emptyCache }

/-- A parent with no coins. -/
def baseNone : COutPoint → Option Coin := fun _ => none

/-- A parent holding the live coin `cA` at `oA`. -/
def baseLiveA : COutPoint → Option Coin := fun p => if p = oA then some cA else none

/-! ### State-preservation helper lemmas -/

theorem fetchCoin_hashBlock (base : COutPoint → Option Coin) (st : CCoinsViewCache)
    (o : COutPoint) : (fetchCoin base st o).2.hashBlock = st.hashBlock := by
  unfold fetchCoin
  repeat' split
  all_goals rfl

theorem getCoin_state (base : COutPoint → Option Coin) (st : CCoinsViewCache)
    (o : COutPoint) : (getCoin base st o).2 = (fetchCoin base st o).2 := by
  unfold getCoin
  rcases h : fetchCoin base st o with ⟨e, st'⟩
  cases e <;> rfl

theorem haveCoin_state (base : COutPoint → Option Coin) (st : CCoinsViewCache)
    (o : COutPoint) : (haveCoin base st o).2 = (fetchCoin base st o).2 := by
  unfold haveCoin
  rcases h : fetchCoin base st o with ⟨e, st'⟩
  cases e <;> rfl

theorem addCoin_hashBlock (st : CCoinsViewCache) (o : COutPoint) (c : Coin)
    (po : Bool) : (addCoin st o c po).2.hashBlock = st.hashBlock := by
  unfold addCoin
  repeat' split
  all_goals rfl

theorem spendCoin_hashBlock (base : COutPoint → Option Coin) (st : CCoinsViewCache)
    (o : COutPoint) : (spendCoin base st o).2.hashBlock = st.hashBlock := by
  unfold spendCoin
  rcases h : fetchCoin base st o with ⟨e, st'⟩
  have hst' : st'.hashBlock = st.hashBlock := by
    have := fetchCoin_hashBlock base st o
    rw [h] at this
    exact this
  cases e with
  | none => exact hst'
  | some e =>
    simp only []
    split <;> exact hst'

theorem uncache_hashBlock (st : CCoinsViewCache) (o : COutPoint) :
    (uncache st o).hashBlock = st.hashBlock := by
  unfold uncache
  repeat' split
  all_goals rfl

theorem batchWriteStep_hashBlock (st : CCoinsViewCache) (p : COutPoint)
    (e : CCoinsCacheEntry) : (batchWriteStep st p e).2.hashBlock = st.hashBlock := by
  unfold batchWriteStep
  repeat' split
  all_goals rfl

theorem batchWriteLoop_hashBlock (child : List (COutPoint × CCoinsCacheEntry)) :
    ∀ st : CCoinsViewCache, (batchWriteLoop st child).2.hashBlock = st.hashBlock := by
  induction child with
  | nil => intro st; rfl
  | cons pe rest ih =>
    intro st
    obtain ⟨p, e⟩ := pe
    have hstep := batchWriteStep_hashBlock st p e
    unfold batchWriteLoop
    rcases h : batchWriteStep st p e with ⟨err, st'⟩
    rw [h] at hstep
    cases err with
    | none => simpa [ih st'] using hstep
    | some e0 => exact hstep

theorem flush_hashBlock (bw : CCoinsMap → Nat → CNameCache → Bool)
    (st : CCoinsViewCache) : (flush bw st).2.hashBlock = st.hashBlock := by
  unfold flush
  split <;> rfl

/-! ### Claim C9 (best-block marker discipline) -/

/-- C9, counterexample: `GetBestBlock` is a read, yet on a cache whose
`hashBlock` is null it caches the parent's best block, changing
`hashBlock` from null (0) to a non-null value — contradicting the claim
that no read changes `hashBlock` from null to non-null. -/
theorem getBestBlock_caches_base_cex :
    stEmpty.hashBlock = 0 ∧ (getBestBlock 5 stEmpty).2.hashBlock = 5 := by decide

/-- C9 (amended): `hashBlock` is unchanged by `FetchCoin`, `GetCoin`,
`HaveCoin`, `AddCoin`, `SpendCoin`, `Uncache` and `Flush`; `SetBestBlock`
sets it to the supplied hash; a successful `BatchWrite` sets it to the
supplied hash while a failing one leaves it unchanged; and `GetBestBlock`,
when called while `hashBlock` is null, caches the parent's best block
into it (otherwise leaving it unchanged). -/
theorem hashBlock_rule (base : COutPoint → Option Coin)
    (bw : CCoinsMap → Nat → CNameCache → Bool) (st : CCoinsViewCache)
    (o : COutPoint) (c : Coin) (po : Bool)
    (child : List (COutPoint × CCoinsCacheEntry)) (hsh b : Nat) (names : CNameCache) :
    (fetchCoin base st o).2.hashBlock = st.hashBlock ∧
    (getCoin base st o).2.hashBlock = st.hashBlock ∧
    (haveCoin base st o).2.hashBlock = st.hashBlock ∧
    (addCoin st o c po).2.hashBlock = st.hashBlock ∧
    (spendCoin base st o).2.hashBlock = st.hashBlock ∧
    (uncache st o).hashBlock = st.hashBlock ∧
    (flush bw st).2.hashBlock = st.hashBlock ∧
    (setBestBlock st b).hashBlock = b ∧
    ((batchWrite st child hsh names).1 = none →
      (batchWrite st child hsh names).2.hashBlock = hsh) ∧
    ((batchWrite st child hsh names).1 ≠ none →
      (batchWrite st child hsh names).2.hashBlock = st.hashBlock) ∧
    (getBestBlock b st).2.hashBlock = (if st.hashBlock = 0 then b else st.hashBlock) := by
  refine ⟨fetchCoin_hashBlock base st o, ?_, ?_, addCoin_hashBlock st o c po,
    spendCoin_hashBlock base st o, uncache_hashBlock st o, flush_hashBlock bw st,
    rfl, ?_, ?_, ?_⟩
  · rw [getCoin_state]; exact fetchCoin_hashBlock base st o
  · rw [haveCoin_state]; exact fetchCoin_hashBlock base st o
  · intro hok
    unfold batchWrite at hok ⊢
    rcases h : batchWriteLoop st child with ⟨err, st'⟩
    rw [h] at hok
    cases err with
    | none => rfl
    | some e0 => simp at hok
  · intro herr
    unfold batchWrite at herr ⊢
    have hloop := batchWriteLoop_hashBlock child st
    rcases h : batchWriteLoop st child with ⟨err, st'⟩
    rw [h] at herr hloop
    cases err with
    | none => simp at herr
    | some e0 => exact hloop
  · unfold getBestBlock
    split <;> simp_all

/-- C9, witness: the amended rule applied to the concrete empty cache,
with the successful-`BatchWrite` implication discharged. -/
theorem hashBlock_rule_witness :
    (batchWrite stEmpty [] 9 CNameCache.emptyCache).2.hashBlock = 9 ∧
    (getBestBlock 5 stEmpty).2.hashBlock = (if stEmpty.hashBlock = 0 then 5 else stEmpty.hashBlock) := by
  have h := hashBlock_rule baseNone (fun _ _ _ => true) stEmpty oA cA false [] 9 5
    CNameCache.emptyCache
  exact ⟨h.2.2.2.2.2.2.2.2.1 (by decide), h.2.2.2.2.2.2.2.2.2.2⟩

/-! ### Claim C1 (AddCoin FRESH/DIRTY rule) -/

/-- C1, counterexample: with `possible_overwrite = true` the source never
computes a new `fresh` flag, so adding a spendable coin into a slot that
did not pre-exist leaves the entry without `FRESH` — the claim says it
should be marked `FRESH` exactly then. -/
theorem addCoin_fresh_claim_cex :
    (addCoin stEmpty oA cA true).1 = none ∧
    mfind oA (addCoin stEmpty oA cA true).2.cacheCoins
      = some { coin := cA, dirty := true, fresh := false } := by decide

/-- C1 (amended): for a successful `AddCoin` of a spendable coin, the
`DIRTY` flag is always set afterwards; when `possible_overwrite` is false
(and assuming invariant 3, no entry both `FRESH` and spent), the entry is
`FRESH` exactly when the slot did not pre-exist or pre-existed without
`DIRTY`; when `possible_overwrite` is true no new `FRESH` flag is
computed, and the entry keeps exactly the pre-existing `FRESH` flag (or
none for a new slot). -/
theorem addCoin_flag_rule (st : CCoinsViewCache) (o : COutPoint) (c : Coin) (po : Bool)
    (hnfs : ∀ pe ∈ st.cacheCoins, pe.2.fresh = true → pe.2.coin.IsSpent = false)
    (hsp : c.IsSpent = false)
    (hun : CScript.IsUnspendable c.out.scriptPubKey = false)
    (hok : (addCoin st o c po).1 = none) :
    ∃ e, mfind o (addCoin st o c po).2.cacheCoins = some e ∧ e.dirty = true ∧
      e.fresh = (match po, mfind o st.cacheCoins with
                 | false, none => true
                 | false, some old => !old.dirty
                 | true, none => false
                 | true, some old => old.fresh) := by
  rcases hm : mfind o st.cacheCoins with _ | it
  · refine ⟨{ coin := c, dirty := true, fresh := !po }, ?_, rfl, ?_⟩
    · simp [addCoin, hsp, hun, hm, mfind_minsert_self]
    · cases po <;> rfl
  · cases po with
    | true =>
      refine ⟨{ coin := c, dirty := true, fresh := it.fresh }, ?_, rfl, ?_⟩
      · simp [addCoin, hsp, hun, hm, mfind_minsert_self]
      · rfl
    | false =>
      by_cases hspent : it.coin.IsSpent = false
      · exfalso
        have hbad : (addCoin st o c false).1 = some CoinsError.overwriteUnspent := by
          simp [addCoin, hsp, hun, hm, hspent]
        rw [hbad] at hok
        exact Option.noConfusion hok
      · have hfr : it.fresh = false := by
          cases hf : it.fresh with
          | false => rfl
          | true => exact absurd (hnfs (o, it) (mfind_mem hm) hf) hspent
        refine ⟨{ coin := c, dirty := true, fresh := !it.dirty }, ?_, rfl, ?_⟩
        · simp [addCoin, hsp, hun, hm, hspent, mfind_minsert_self, hfr]
        · rfl

/-- C1, witness: the amended rule applied to a re-add over a dirty spent
slot: the coin at `oA` is spent (leaving a dirty spent entry) and then
re-added with `possible_overwrite = false`; the resulting entry is DIRTY
and not FRESH because the slot pre-existed and was DIRTY. -/
theorem addCoin_flag_rule_witness :
    ∃ e, mfind oA (addCoin (spendCoin baseNone stLiveA oA).2 oA cB false).2.cacheCoins
        = some e ∧ e.dirty = true ∧
      e.fresh = (match false, mfind oA (spendCoin baseNone stLiveA oA).2.cacheCoins with
                 | false, none => true
                 | false, some old => !old.dirty
                 | true, none => false
                 | true, some old => old.fresh) :=
  addCoin_flag_rule (spendCoin baseNone stLiveA oA).2 oA cB false
    (by decide) (by decide) (by decide) (by decide)

/-! ### Claim C10 (unspendable coins are dropped) -/

/-- C10, counterexample: the claim conditions `HaveCoin` only on the
parent; but when the cache itself already holds a live coin at the
outpoint, `AddCoin` of an unspendable coin is indeed dropped with the
state unchanged, yet the subsequent `HaveCoin` returns true even though
the parent holds no live coin there. -/
theorem addCoin_unspendable_cex :
    baseNone oA = none ∧
    addCoin stLiveA oA cUnsp false = (none, stLiveA) ∧
    (haveCoin baseNone stLiveA oA).1 = true := by decide

/-- C10 (amended): for an unspent coin with an unspendable locking script,
`AddCoin` returns without error for either value of `possible_overwrite`
and leaves the cache (including the usage counter) unchanged; and when
neither the cache map nor the parent holds a live coin at the outpoint, a
subsequent `HaveCoin` returns false. -/
theorem addCoin_unspendable_drop (base : COutPoint → Option Coin)
    (st : CCoinsViewCache) (o : COutPoint) (c : Coin) (po : Bool)
    (hu : CScript.IsUnspendable c.out.scriptPubKey = true)
    (hsp : c.IsSpent = false)
    (hcache : ∀ e, mfind o st.cacheCoins = some e → e.coin.IsSpent = true)
    (hbase : ∀ c', base o = some c' → c'.IsSpent = true) :
    addCoin st o c po = (none, st) ∧
    (haveCoin base st o).1 = false ∧
    (addCoin st o c po).2.cachedCoinsUsage = st.cachedCoinsUsage := by
  have hdrop : addCoin st o c po = (none, st) := by
    simp [addCoin, hsp, hu]
  refine ⟨hdrop, ?_, by rw [hdrop]⟩
  unfold haveCoin fetchCoin
  rcases hm : mfind o st.cacheCoins with _ | e
  · rcases hb : base o with _ | tmp
    · rfl
    · simp [hbase tmp hb]
  · simp [hcache e hm]

/-- C10, witness: the amended statement on the empty cache over an empty
parent. -/
theorem addCoin_unspendable_drop_witness :
    addCoin stEmpty oA cUnsp true = (none, stEmpty) ∧
    (haveCoin baseNone stEmpty oA).1 = false ∧
    (addCoin stEmpty oA cUnsp true).2.cachedCoinsUsage = stEmpty.cachedCoinsUsage :=
  addCoin_unspendable_drop baseNone stEmpty oA cUnsp true (by decide) (by decide)
    (fun e h => Option.noConfusion h) (fun c' h => Option.noConfusion h)

/-! ### Claim C5 (Flush contract) -/

/-- C5: when the best-block hash is null and both the coins map and name
cache are empty, `Flush` succeeds trivially, leaving the state unchanged
and never consulting the parent (the result is the same for every parent
`BatchWrite` function); otherwise it hands exactly the cache's state to
the parent's `BatchWrite` and leaves behind an empty coins map, a zero
usage counter and an empty name cache. -/
theorem flush_contract (bw bw' : CCoinsMap → Nat → CNameCache → Bool)
    (st : CCoinsViewCache) :
    ((st.hashBlock = 0 ∧ st.cacheCoins.isEmpty ∧ st.cacheNames.isEmpty) →
      flush bw st = (true, st) ∧ flush bw st = flush bw' st) ∧
    (¬(st.hashBlock = 0 ∧ st.cacheCoins.isEmpty ∧ st.cacheNames.isEmpty) →
      flush bw st = (bw st.cacheCoins st.hashBlock st.cacheNames,
        { st with cacheCoins := [], cachedCoinsUsage := 0,
                  cacheNames := CNameCache.emptyCache })) := by
  constructor
  · intro hc
    unfold flush
    rw [if_pos hc, if_pos hc]
    exact ⟨rfl, rfl⟩
  · intro hc
    unfold flush
    rw [if_neg hc]

/-- C5, witness: the trivial no-op branch on the empty cache, for two
different parent write functions. -/
theorem flush_contract_witness :
    flush (fun _ _ _ => false) stEmpty = (true, stEmpty) ∧
    flush (fun _ _ _ => false) stEmpty = flush (fun _ _ _ => true) stEmpty :=
  (flush_contract (fun _ _ _ => false) (fun _ _ _ => true) stEmpty).1 (by decide)

/-! ### Claim C2 (AddCoin then SpendCoin round-trip) -/

/-- C2, counterexample: over a parent that holds a live coin at `oA`,
`AddCoin(oA, cB, false)` creates a FRESH entry and `SpendCoin(oA)` erases
it — after which `GetCoin(oA)` reads through to the parent and returns its
live coin, not `None` as the claim states. -/
theorem addCoin_spendCoin_cex :
    (addCoin stEmpty oA cB false).1 = none ∧
    mfind oA (addCoin stEmpty oA cB false).2.cacheCoins
      = some { coin := cB, dirty := true, fresh := true } ∧
    (spendCoin baseLiveA (addCoin stEmpty oA cB false).2 oA).1 = true ∧
    (getCoin baseLiveA (spendCoin baseLiveA (addCoin stEmpty oA cB false).2 oA).2 oA).1
      = some cA := by decide

theorem addCoin_nodup (st : CCoinsViewCache) (o : COutPoint) (c : Coin) (po : Bool)
    (h : nodupKeys st.cacheCoins) : nodupKeys (addCoin st o c po).2.cacheCoins := by
  unfold addCoin
  repeat' split
  all_goals first
    | exact h
    | exact nodupKeys_minsert _ _ _ h

theorem getCoin_spent_none (base : COutPoint → Option Coin) (st : CCoinsViewCache)
    (o : COutPoint) (e : CCoinsCacheEntry) (hm : mfind o st.cacheCoins = some e)
    (hs : e.coin.IsSpent = true) : (getCoin base st o).1 = none := by
  unfold getCoin fetchCoin
  rw [hm]
  simp [hs]

theorem getCoin_none_of_no_live (base : COutPoint → Option Coin) (st : CCoinsViewCache)
    (o : COutPoint) (hm : mfind o st.cacheCoins = none)
    (hb : ∀ c', base o = some c' → c'.IsSpent = true) : (getCoin base st o).1 = none := by
  unfold getCoin fetchCoin
  rw [hm]
  rcases hbo : base o with _ | tmp
  · rfl
  · simp [hb tmp hbo]

/-- C2 (amended): provided the parent view holds no live coin at the
outpoint (which spec invariant 2 guarantees whenever the entry is FRESH),
after `AddCoin(o, c, possible_overwrite)` succeeds, `SpendCoin(o)` leaves
`GetCoin(o)` with no live coin; and whenever the entry produced by the
`AddCoin` was marked FRESH, the map holds no entry for `o` at all after
the spend. -/
theorem addCoin_spendCoin_roundtrip (base : COutPoint → Option Coin)
    (st : CCoinsViewCache) (o : COutPoint) (c : Coin) (po : Bool)
    (hnd : nodupKeys st.cacheCoins)
    (hok : (addCoin st o c po).1 = none)
    (hbase : ∀ c', base o = some c' → c'.IsSpent = true) :
    (getCoin base (spendCoin base (addCoin st o c po).2 o).2 o).1 = none ∧
    (∀ e, mfind o (addCoin st o c po).2.cacheCoins = some e → e.fresh = true →
      mfind o (spendCoin base (addCoin st o c po).2 o).2.cacheCoins = none) := by
  set st1 := (addCoin st o c po).2 with hst1
  have hnd1 : nodupKeys st1.cacheCoins := addCoin_nodup st o c po hnd
  clear hok hst1
  rcases hm1 : mfind o st1.cacheCoins with _ | e1
  · rcases hb : base o with _ | tmp
    · have hsp : spendCoin base st1 o = (false, st1) := by
        simp [spendCoin, fetchCoin, hm1, hb]
      rw [hsp]
      exact ⟨getCoin_none_of_no_live base st1 o hm1 hbase,
        by intro e he; exact Option.noConfusion he⟩
    · have htmp : tmp.IsSpent = true := hbase tmp hb
      have hsp : (spendCoin base st1 o).2.cacheCoins
          = merase o (minsert o { coin := tmp, dirty := false, fresh := true }
              st1.cacheCoins) := by
        simp [spendCoin, fetchCoin, hm1, hb, htmp]
      have hnone : mfind o (spendCoin base st1 o).2.cacheCoins = none := by
        rw [hsp]
        exact mfind_merase_self o _ (nodupKeys_minsert _ _ _ hnd1)
      exact ⟨getCoin_none_of_no_live base _ o hnone hbase,
        by intro e he; exact Option.noConfusion he⟩
  · by_cases hf : e1.fresh = true
    · have hsp : (spendCoin base st1 o).2.cacheCoins = merase o st1.cacheCoins := by
        simp [spendCoin, fetchCoin, hm1, hf]
      have hnone : mfind o (spendCoin base st1 o).2.cacheCoins = none := by
        rw [hsp]
        exact mfind_merase_self o _ hnd1
      exact ⟨getCoin_none_of_no_live base _ o hnone hbase, fun e he hfr => hnone⟩
    · have hf' : e1.fresh = false := by
        cases h2 : e1.fresh
        · rfl
        · exact absurd h2 hf
      have hsp : (spendCoin base st1 o).2.cacheCoins
          = minsert o { coin := e1.coin.Clear, dirty := true, fresh := e1.fresh }
              st1.cacheCoins := by
        simp [spendCoin, fetchCoin, hm1, hf']
      have hfound : mfind o (spendCoin base st1 o).2.cacheCoins
          = some { coin := e1.coin.Clear, dirty := true, fresh := e1.fresh } := by
        rw [hsp]
        exact mfind_minsert_self o _ st1.cacheCoins
      have hcs : (Coin.Clear e1.coin).IsSpent = true := by
        simp [Coin.Clear, Coin.IsSpent, Coin.emptyCoin]
      refine ⟨getCoin_spent_none base _ o _ hfound hcs, ?_⟩
      intro e he hfr
      injection he with h2
      subst h2
      rw [hf'] at hfr
      exact Bool.noConfusion hfr

/-- C2, witness: the amended round-trip on the empty cache over an empty
parent: add a fresh coin, spend it, observe no live coin and no map
entry. -/
theorem addCoin_spendCoin_roundtrip_witness :
    (getCoin baseNone (spendCoin baseNone (addCoin stEmpty oA cA false).2 oA).2 oA).1 = none ∧
    (∀ e, mfind oA (addCoin stEmpty oA cA false).2.cacheCoins = some e → e.fresh = true →
      mfind oA (spendCoin baseNone (addCoin stEmpty oA cA false).2 oA).2.cacheCoins = none) :=
  addCoin_spendCoin_roundtrip baseNone stEmpty oA cA false (by decide) (by decide)
    (fun c' h => Option.noConfusion h)

/-! ### Claim C3 (BatchWrite spend collapses) -/

/-- Child entry for the collapse tests: spent, DIRTY and FRESH. -/
def eFS : CCoinsCacheEntry := { coin := Coin.emptyCoin, dirty := true, fresh := true }

/-- Child entry for the collapse tests: spent and DIRTY, not FRESH. -/
def eSp : CCoinsCacheEntry := { coin := Coin.emptyCoin, dirty := true, fresh := false }

/-- A receiving cache holding a live FRESH (and DIRTY) coin at `oA`. -/
def stFreshA : CCoinsViewCache :=
  { cacheCoins := [(oA, { coin := cA, dirty := true, fresh := true })],
    cachedCoinsUsage := 1, hashBlock := 0, cacheNames := CNameCache.emptyCache }

/-- C3: during `BatchWrite`, (a) a child entry that is DIRTY and FRESH
with a spent coin, absent from the receiving cache, is dropped — nothing
is inserted and no error is raised; and (b) a DIRTY child entry with a
spent coin that meets a receiving-cache entry flagged FRESH causes that
entry to be erased (provided the preceding FreshAppliedToExisting check
does not fire, i.e. the child is not FRESH over a live receiving coin). -/
theorem batchWrite_spend_collapse (st : CCoinsViewCache) (p : COutPoint)
    (e us : CCoinsCacheEntry) (hsh : Nat) (names : CNameCache)
    (hd : e.dirty = true) (hs : e.coin.IsSpent = true) :
    (mfind p st.cacheCoins = none → e.fresh = true →
      (batchWrite st [(p, e)] hsh names).1 = none ∧
      (batchWrite st [(p, e)] hsh names).2.cacheCoins = st.cacheCoins) ∧
    (mfind p st.cacheCoins = some us → us.fresh = true →
      (e.fresh = false ∨ us.coin.IsSpent = true) →
      (batchWrite st [(p, e)] hsh names).1 = none ∧
      (batchWrite st [(p, e)] hsh names).2.cacheCoins = merase p st.cacheCoins) := by
  constructor
  · intro hm hf
    constructor <;>
      simp [batchWrite, batchWriteLoop, batchWriteStep, hd, hs, hm, hf]
  · intro hm hf hnofail
    have hcheck : (e.fresh && !us.coin.IsSpent) = false := by
      rcases hnofail with h | h <;> simp [h]
    constructor <;>
      simp [batchWrite, batchWriteLoop, batchWriteStep, hd, hs, hm, hf, hcheck]

/-- C3, witness: both collapse behaviours at concrete states — the
fresh-spent child entry over the empty cache is dropped, and the spent
child entry over a FRESH receiving entry erases it. -/
theorem batchWrite_spend_collapse_witness :
    ((batchWrite stEmpty [(oA, eFS)] 3 CNameCache.emptyCache).1 = none ∧
     (batchWrite stEmpty [(oA, eFS)] 3 CNameCache.emptyCache).2.cacheCoins
        = stEmpty.cacheCoins) ∧
    ((batchWrite stFreshA [(oA, eSp)] 3 CNameCache.emptyCache).1 = none ∧
     (batchWrite stFreshA [(oA, eSp)] 3 CNameCache.emptyCache).2.cacheCoins
        = merase oA stFreshA.cacheCoins) :=
  ⟨(batchWrite_spend_collapse stEmpty oA eFS eSp 3 CNameCache.emptyCache
      (by decide) (by decide)).1 (by decide) (by decide),
   (batchWrite_spend_collapse stFreshA oA eSp
      { coin := cA, dirty := true, fresh := true } 3 CNameCache.emptyCache
      (by decide) (by decide)).2 (by decide) (by decide) (by decide)⟩

/-! ### Claim C4 (the FreshAppliedToExisting error condition) -/

/-- The condition under which one child entry makes `BatchWrite` throw
`FreshAppliedToExisting`: the entry is DIRTY and FRESH while the receiving
cache holds a live (unspent) coin at the same outpoint. -/
def freshConflict (st : CCoinsViewCache) (pe : COutPoint × CCoinsCacheEntry) : Prop :=
  pe.2.dirty = true ∧ pe.2.fresh = true ∧
    ∃ us, mfind pe.1 st.cacheCoins = some us ∧ us.coin.IsSpent = false

theorem batchWriteStep_err_of_conflict (st : CCoinsViewCache) (p : COutPoint)
    (e : CCoinsCacheEntry) (hc : freshConflict st (p, e)) :
    batchWriteStep st p e = (some CoinsError.freshMisapplied, st) := by
  obtain ⟨hd, hf, us, hm, hlive⟩ := hc
  replace hd : e.dirty = true := hd
  replace hf : e.fresh = true := hf
  simp [batchWriteStep, hd, hf, hm, hlive]

theorem batchWriteStep_ok (st : CCoinsViewCache) (p : COutPoint)
    (e : CCoinsCacheEntry) (hc : ¬ freshConflict st (p, e)) :
    (batchWriteStep st p e).1 = none := by
  unfold batchWriteStep
  by_cases hd : e.dirty = false
  · simp [hd]
  · simp only [Bool.not_eq_false] at hd
    rcases hm : mfind p st.cacheCoins with _ | us
    · simp only [hd, Bool.true_eq_false, if_false, hm]
      split <;> rfl
    · have hcond : (e.fresh && !us.coin.IsSpent) = false := by
        cases hfr : e.fresh with
        | false => simp
        | true =>
          cases hsp2 : us.coin.IsSpent with
          | false => exact absurd ⟨hd, hfr, us, hm, hsp2⟩ hc
          | true => simp [hsp2]
      simp only [hd, Bool.true_eq_false, if_false, hm, hcond, Bool.false_eq_true]
      split <;> rfl

theorem batchWriteStep_err_only (st : CCoinsViewCache) (p : COutPoint)
    (e : CCoinsCacheEntry) (err : CoinsError)
    (h : (batchWriteStep st p e).1 = some err) : err = CoinsError.freshMisapplied := by
  by_cases hc : freshConflict st (p, e)
  · rw [batchWriteStep_err_of_conflict st p e hc] at h
    exact (Option.some.inj h).symm
  · rw [batchWriteStep_ok st p e hc] at h
    exact Option.noConfusion h

theorem batchWriteStep_find_ne (st : CCoinsViewCache) (p : COutPoint)
    (e : CCoinsCacheEntry) (q : COutPoint) (hq : q ≠ p) :
    mfind q (batchWriteStep st p e).2.cacheCoins = mfind q st.cacheCoins := by
  unfold batchWriteStep
  repeat' split
  all_goals
    simp [mfind_minsert_ne _ _ _ _ hq, mfind_merase_ne _ _ _ hq]

theorem batchWriteLoop_err_iff (child : List (COutPoint × CCoinsCacheEntry))
    (st : CCoinsViewCache) (hnd : nodupKeys child) :
    ((batchWriteLoop st child).1 = some CoinsError.freshMisapplied ↔
      ∃ pe ∈ child, freshConflict st pe) := by
  induction child generalizing st with
  | nil => simp [batchWriteLoop]
  | cons pe0 rest ih =>
    obtain ⟨p, e⟩ := pe0
    have hnd' := hnd
    unfold nodupKeys at hnd'
    simp only [List.map_cons, List.nodup_cons] at hnd'
    obtain ⟨hp, hndr'⟩ := hnd'
    have hndr : nodupKeys rest := hndr'
    by_cases hc : freshConflict st (p, e)
    · have hstep := batchWriteStep_err_of_conflict st p e hc
      constructor
      · intro _
        exact ⟨(p, e), List.mem_cons_self _ _, hc⟩
      · intro _
        simp [batchWriteLoop, hstep]
    · have hok1 := batchWriteStep_ok st p e hc
      rcases hstep : batchWriteStep st p e with ⟨err, st'⟩
      rw [hstep] at hok1
      obtain rfl : err = none := hok1
      have htrans : ∀ pe' ∈ rest, (freshConflict st' pe' ↔ freshConflict st pe') := by
        intro pe' hmem
        have hne : pe'.1 ≠ p := by
          intro hh
          exact hp (hh ▸ List.mem_map.mpr ⟨pe', hmem, rfl⟩)
        have hfind : mfind pe'.1 st'.cacheCoins = mfind pe'.1 st.cacheCoins := by
          have hfe := batchWriteStep_find_ne st p e pe'.1 hne
          rw [hstep] at hfe
          exact hfe
        unfold freshConflict
        rw [hfind]
      constructor
      · intro hl
        have hl' : (batchWriteLoop st' rest).1 = some CoinsError.freshMisapplied := by
          simp only [batchWriteLoop, hstep] at hl
          exact hl
        obtain ⟨pe', hmem, hc'⟩ := (ih st' hndr).mp hl'
        exact ⟨pe', List.mem_cons_of_mem _ hmem, (htrans pe' hmem).mp hc'⟩
      · rintro ⟨pe', hmem, hc'⟩
        rcases List.mem_cons.mp hmem with rfl | hmem'
        · exact absurd hc' hc
        · have hres : (batchWriteLoop st' rest).1 = some CoinsError.freshMisapplied :=
            (ih st' hndr).mpr ⟨pe', hmem', (htrans pe' hmem').mpr hc'⟩
          simp only [batchWriteLoop, hstep]
          exact hres

theorem batchWriteLoop_err_only (child : List (COutPoint × CCoinsCacheEntry))
    (st : CCoinsViewCache) (err : CoinsError)
    (h : (batchWriteLoop st child).1 = some err) : err = CoinsError.freshMisapplied := by
  induction child generalizing st with
  | nil => exact Option.noConfusion h
  | cons pe0 rest ih =>
    obtain ⟨p, e⟩ := pe0
    rcases hstep : batchWriteStep st p e with ⟨err0, st'⟩
    simp only [batchWriteLoop, hstep] at h
    cases err0 with
    | none => exact ih st' h
    | some e0 =>
      have he0 : e0 = CoinsError.freshMisapplied := by
        have := batchWriteStep_err_only st p e e0
        rw [hstep] at this
        exact this rfl
      rw [← Option.some.inj h, he0]

theorem batchWrite_fst (st : CCoinsViewCache) (child : List (COutPoint × CCoinsCacheEntry))
    (hsh : Nat) (names : CNameCache) :
    (batchWrite st child hsh names).1 = (batchWriteLoop st child).1 := by
  unfold batchWrite
  rcases h : batchWriteLoop st child with ⟨err, st'⟩
  cases err <;> rfl

/-- C4: `BatchWrite` fails with `FreshAppliedToExisting` exactly when some
child entry is DIRTY and FRESH while the receiving cache holds a live coin
at the same outpoint; that is the only possible failure; and a child entry
without the DIRTY flag is skipped outright (the step is a complete no-op),
so it can never trigger the error. -/
theorem batchWrite_fresh_error_iff (st : CCoinsViewCache)
    (child : List (COutPoint × CCoinsCacheEntry)) (hsh : Nat) (names : CNameCache)
    (hnd : nodupKeys child) :
    ((batchWrite st child hsh names).1 = some CoinsError.freshMisapplied ↔
      ∃ pe ∈ child, freshConflict st pe) ∧
    (∀ err, (batchWrite st child hsh names).1 = some err →
      err = CoinsError.freshMisapplied) ∧
    (∀ p e, e.dirty = false → batchWriteStep st p e = (none, st)) := by
  refine ⟨?_, ?_, ?_⟩
  · rw [batchWrite_fst]
    exact batchWriteLoop_err_iff child st hnd
  · intro err herr
    rw [batchWrite_fst] at herr
    exact batchWriteLoop_err_only child st err herr
  · intro p e hd
    simp [batchWriteStep, hd]

/-- C4, witness: the error condition at a concrete state: a DIRTY+FRESH
child entry over the live coin held by `stLiveA` makes the error
equivalence concrete, and the skip rule is applied to a flag-free entry. -/
theorem batchWrite_fresh_error_iff_witness :
    ((batchWrite stLiveA [(oA, { coin := cB, dirty := true, fresh := true })] 4
        CNameCache.emptyCache).1 = some CoinsError.freshMisapplied ↔
      ∃ pe ∈ [(oA, ({ coin := cB, dirty := true, fresh := true } : CCoinsCacheEntry))],
        freshConflict stLiveA pe) ∧
    (∀ err, (batchWrite stLiveA [(oA, { coin := cB, dirty := true, fresh := true })] 4
        CNameCache.emptyCache).1 = some err → err = CoinsError.freshMisapplied) ∧
    (∀ p e, e.dirty = false → batchWriteStep stLiveA p e = (none, stLiveA)) :=
  batchWrite_fresh_error_iff stLiveA
    [(oA, { coin := cB, dirty := true, fresh := true })] 4 CNameCache.emptyCache
    (by decide)

/-! ### Claim C6 (memory-usage accounting) -/

theorem fetchCoin_found (base : COutPoint → Option Coin) (st : CCoinsViewCache)
    (o : COutPoint) (e : CCoinsCacheEntry) (st' : CCoinsViewCache)
    (h : fetchCoin base st o = (some e, st')) : mfind o st'.cacheCoins = some e := by
  unfold fetchCoin at h
  rcases hm : mfind o st.cacheCoins with _ | e0
  · rw [hm] at h
    rcases hb : base o with _ | tmp
    · rw [hb] at h
      exact absurd h (by simp)
    · rw [hb] at h
      injection h with h1 h2
      injection h1 with h1
      rw [← h2, ← h1]
      exact mfind_minsert_self o _ st.cacheCoins
  · rw [hm] at h
    injection h with h1 h2
    injection h1 with h1
    rw [← h2, ← h1]
    exact hm

theorem fetchCoin_usage (base : COutPoint → Option Coin) (st : CCoinsViewCache)
    (o : COutPoint) (h : usageOK st) : usageOK (fetchCoin base st o).2 := by
  unfold usageOK totalCoinUsage at h ⊢
  unfold fetchCoin
  rcases hm : mfind o st.cacheCoins with _ | e
  · rcases hb : base o with _ | tmp
    · exact h
    · show st.cachedCoinsUsage + tmp.DynamicMemoryUsage
        = msum (fun e => e.coin.DynamicMemoryUsage)
            (minsert o { coin := tmp, dirty := false, fresh := tmp.IsSpent } st.cacheCoins)
      rw [msum_minsert, hm, h]
      simp
  · exact h

theorem addCoin_usage_ok (st : CCoinsViewCache) (o : COutPoint) (c : Coin) (po : Bool)
    (h : usageOK st) (hok : (addCoin st o c po).1 = none) :
    usageOK (addCoin st o c po).2 := by
  unfold usageOK totalCoinUsage at h ⊢
  by_cases hcs : c.IsSpent = true
  · simp [addCoin, hcs] at hok
  · have hcs' : c.IsSpent = false := by
      simp only [Bool.not_eq_true] at hcs
      exact hcs
    by_cases hu : CScript.IsUnspendable c.out.scriptPubKey = true
    · have hres : (addCoin st o c po).2 = st := by
        simp [addCoin, hcs', hu]
      rw [hres]
      exact h
    · have hu' : CScript.IsUnspendable c.out.scriptPubKey = false := by
        simp only [Bool.not_eq_true] at hu
        exact hu
      rcases hm : mfind o st.cacheCoins with _ | it
      · have hres : (addCoin st o c po).2
            = { st with
                cacheCoins :=
                  minsert o { coin := c, dirty := true, fresh := !po } st.cacheCoins,
                cachedCoinsUsage := st.cachedCoinsUsage + c.DynamicMemoryUsage } := by
          simp [addCoin, hcs', hu', hm]
        rw [hres]
        show st.cachedCoinsUsage + c.DynamicMemoryUsage
          = msum (fun e => e.coin.DynamicMemoryUsage)
              (minsert o { coin := c, dirty := true, fresh := !po } st.cacheCoins)
        rw [msum_minsert, hm, h]
        simp
      · by_cases herr : po = false ∧ it.coin.IsSpent = false
        · simp [addCoin, hcs', hu', hm, herr] at hok
        · have hres : (addCoin st o c po).2
              = { st with
                  cacheCoins :=
                    minsert o
                      { coin := c, dirty := true, fresh := it.fresh || (!po && !it.dirty) }
                      st.cacheCoins,
                  cachedCoinsUsage :=
                    st.cachedCoinsUsage - it.coin.DynamicMemoryUsage
                      + c.DynamicMemoryUsage } := by
            simp [addCoin, hcs', hu', hm, herr]
          rw [hres]
          show st.cachedCoinsUsage - it.coin.DynamicMemoryUsage + c.DynamicMemoryUsage
            = msum (fun e => e.coin.DynamicMemoryUsage)
                (minsert o
                  { coin := c, dirty := true, fresh := it.fresh || (!po && !it.dirty) }
                  st.cacheCoins)
          rw [msum_minsert, hm, h]
          ring

theorem addCoin_usage_err (st : CCoinsViewCache) (o : COutPoint) (c : Coin) (po : Bool)
    (herr : (addCoin st o c po).1 = some CoinsError.overwriteUnspent) :
    (addCoin st o c po).2.cacheCoins = st.cacheCoins ∧
    ∃ e, mfind o st.cacheCoins = some e ∧
      (addCoin st o c po).2.cachedCoinsUsage
        = st.cachedCoinsUsage - e.coin.DynamicMemoryUsage := by
  by_cases hcs : c.IsSpent = true
  · simp [addCoin, hcs] at herr
  · have hcs' : c.IsSpent = false := by
      simp only [Bool.not_eq_true] at hcs
      exact hcs
    by_cases hu : CScript.IsUnspendable c.out.scriptPubKey = true
    · simp [addCoin, hcs', hu] at herr
    · have hu' : CScript.IsUnspendable c.out.scriptPubKey = false := by
        simp only [Bool.not_eq_true] at hu
        exact hu
      rcases hm : mfind o st.cacheCoins with _ | it
      · simp [addCoin, hcs', hu', hm] at herr
      · by_cases hcond : po = false ∧ it.coin.IsSpent = false
        · have hres : addCoin st o c po
              = (some CoinsError.overwriteUnspent,
                 { st with
                   cachedCoinsUsage :=
                     st.cachedCoinsUsage - it.coin.DynamicMemoryUsage }) := by
            simp [addCoin, hcs', hu', hm, hcond]
          rw [hres]
          exact ⟨rfl, it, rfl, rfl⟩
        · simp [addCoin, hcs', hu', hm, hcond] at herr

theorem spendCoin_usage (base : COutPoint → Option Coin) (st : CCoinsViewCache)
    (o : COutPoint) (h : usageOK st) : usageOK (spendCoin base st o).2 := by
  rcases hf : fetchCoin base st o with ⟨eo, st'⟩
  have h' : usageOK st' := by
    have hfu := fetchCoin_usage base st o h
    rw [hf] at hfu
    exact hfu
  unfold usageOK totalCoinUsage at h'
  unfold usageOK totalCoinUsage
  cases eo with
  | none =>
    have hres : (spendCoin base st o).2 = st' := by
      simp [spendCoin, hf]
    rw [hres]
    exact h'
  | some e =>
    have hm' : mfind o st'.cacheCoins = some e := fetchCoin_found base st o e st' hf
    by_cases hfr : e.fresh = true
    · have hres : (spendCoin base st o).2
          = { st' with
              cacheCoins := merase o st'.cacheCoins,
              cachedCoinsUsage :=
                st'.cachedCoinsUsage - e.coin.DynamicMemoryUsage } := by
        simp [spendCoin, hf, hfr]
      rw [hres]
      show st'.cachedCoinsUsage - e.coin.DynamicMemoryUsage
        = msum (fun e => e.coin.DynamicMemoryUsage) (merase o st'.cacheCoins)
      rw [msum_merase, hm', h']
    · have hfr' : e.fresh = false := by
        simp only [Bool.not_eq_true] at hfr
        exact hfr
      have hres : (spendCoin base st o).2
          = { st' with
              cacheCoins :=
                minsert o { coin := e.coin.Clear, dirty := true, fresh := false }
                  st'.cacheCoins,
              cachedCoinsUsage :=
                st'.cachedCoinsUsage - e.coin.DynamicMemoryUsage } := by
        simp [spendCoin, hf, hfr']
      rw [hres]
      show st'.cachedCoinsUsage - e.coin.DynamicMemoryUsage
        = msum (fun e => e.coin.DynamicMemoryUsage)
            (minsert o { coin := e.coin.Clear, dirty := true, fresh := false }
              st'.cacheCoins)
      rw [msum_minsert, hm', h']
      have hz : (Coin.Clear e.coin).DynamicMemoryUsage = 0 := rfl
      simp [hz]

theorem uncache_usage (st : CCoinsViewCache) (o : COutPoint) (h : usageOK st) :
    usageOK (uncache st o) := by
  unfold usageOK totalCoinUsage at h
  unfold usageOK totalCoinUsage
  rcases hm : mfind o st.cacheCoins with _ | e
  · have hres : uncache st o = st := by
      simp [uncache, hm]
    rw [hres]
    exact h
  · by_cases hc : e.dirty = false ∧ e.fresh = false
    · have hres : uncache st o
          = { st with
              cacheCoins := merase o st.cacheCoins,
              cachedCoinsUsage := st.cachedCoinsUsage - e.coin.DynamicMemoryUsage } := by
        simp [uncache, hm, hc.1, hc.2]
      rw [hres]
      show st.cachedCoinsUsage - e.coin.DynamicMemoryUsage
        = msum (fun e => e.coin.DynamicMemoryUsage) (merase o st.cacheCoins)
      rw [msum_merase, hm, h]
    · have hres : uncache st o = st := by
        simp [uncache, hm, hc]
      rw [hres]
      exact h

theorem batchWriteStep_usage (st : CCoinsViewCache) (p : COutPoint)
    (e : CCoinsCacheEntry) (h : usageOK st) : usageOK (batchWriteStep st p e).2 := by
  unfold usageOK totalCoinUsage at h
  unfold usageOK totalCoinUsage
  by_cases hd : e.dirty = false
  · have hres : (batchWriteStep st p e).2 = st := by
      simp [batchWriteStep, hd]
    rw [hres]
    exact h
  · rcases hm : mfind p st.cacheCoins with _ | us
    · by_cases hc : (e.fresh && e.coin.IsSpent) = true
      · have hres : (batchWriteStep st p e).2 = st := by
          simp [batchWriteStep, hd, hm, hc]
        rw [hres]
        exact h
      · have hres : (batchWriteStep st p e).2
            = { st with
                cacheCoins :=
                  minsert p { coin := e.coin, dirty := true, fresh := e.fresh }
                    st.cacheCoins,
                cachedCoinsUsage :=
                  st.cachedCoinsUsage + e.coin.DynamicMemoryUsage } := by
          simp [batchWriteStep, hd, hm, hc]
        rw [hres]
        show st.cachedCoinsUsage + e.coin.DynamicMemoryUsage
          = msum (fun x => x.coin.DynamicMemoryUsage)
              (minsert p { coin := e.coin, dirty := true, fresh := e.fresh } st.cacheCoins)
        rw [msum_minsert, hm, h]
        simp
    · by_cases hc1 : (e.fresh && !us.coin.IsSpent) = true
      · have hres : (batchWriteStep st p e).2 = st := by
          simp [batchWriteStep, hd, hm, hc1]
        rw [hres]
        exact h
      · by_cases hc2 : (us.fresh && e.coin.IsSpent) = true
        · have hres : (batchWriteStep st p e).2
              = { st with
                  cacheCoins := merase p st.cacheCoins,
                  cachedCoinsUsage :=
                    st.cachedCoinsUsage - us.coin.DynamicMemoryUsage } := by
            simp [batchWriteStep, hd, hm, hc1, hc2]
          rw [hres]
          show st.cachedCoinsUsage - us.coin.DynamicMemoryUsage
            = msum (fun x => x.coin.DynamicMemoryUsage) (merase p st.cacheCoins)
          rw [msum_merase, hm, h]
        · have hres : (batchWriteStep st p e).2
              = { st with
                  cacheCoins :=
                    minsert p { coin := e.coin, dirty := true, fresh := us.fresh }
                      st.cacheCoins,
                  cachedCoinsUsage :=
                    st.cachedCoinsUsage - us.coin.DynamicMemoryUsage
                      + e.coin.DynamicMemoryUsage } := by
            simp [batchWriteStep, hd, hm, hc1, hc2]
          rw [hres]
          show st.cachedCoinsUsage - us.coin.DynamicMemoryUsage + e.coin.DynamicMemoryUsage
            = msum (fun x => x.coin.DynamicMemoryUsage)
                (minsert p { coin := e.coin, dirty := true, fresh := us.fresh } st.cacheCoins)
          rw [msum_minsert, hm, h]
          ring

theorem batchWriteLoop_usage (child : List (COutPoint × CCoinsCacheEntry)) :
    ∀ st : CCoinsViewCache, usageOK st → usageOK (batchWriteLoop st child).2 := by
  induction child with
  | nil => intro st h; exact h
  | cons pe rest ih =>
    intro st h
    obtain ⟨p, e⟩ := pe
    have hstep := batchWriteStep_usage st p e h
    unfold batchWriteLoop
    rcases hs : batchWriteStep st p e with ⟨err, st'⟩
    rw [hs] at hstep
    cases err with
    | none => exact ih st' hstep
    | some e0 => exact hstep

theorem batchWrite_usage (st : CCoinsViewCache)
    (child : List (COutPoint × CCoinsCacheEntry)) (hsh : Nat) (names : CNameCache)
    (h : usageOK st) : usageOK (batchWrite st child hsh names).2 := by
  have hloop := batchWriteLoop_usage child st h
  unfold batchWrite
  rcases hl : batchWriteLoop st child with ⟨err, st'⟩
  rw [hl] at hloop
  cases err with
  | none => exact hloop
  | some e0 => exact hloop

theorem flush_usage (bw : CCoinsMap → Nat → CNameCache → Bool) (st : CCoinsViewCache)
    (h : usageOK st) : usageOK (flush bw st).2 := by
  unfold flush
  split
  · exact h
  · show (0 : Int) = totalCoinUsage []
    rfl

/-- C6, counterexample: `stLiveA` satisfies the usage invariant; the
failing `AddCoin` (OverwriteUnspent) subtracts the existing coin's usage
before throwing and leaves the map untouched, so at that public-call
boundary the counter no longer equals the sum over the map. -/
theorem usage_counter_cex :
    usageOK stLiveA ∧
    (addCoin stLiveA oA cB false).1 = some CoinsError.overwriteUnspent ∧
    ¬ usageOK (addCoin stLiveA oA cB false).2 := by decide

/-- C6 (amended): starting from a state satisfying the usage invariant,
it is preserved across `FetchCoin` (hence `GetCoin`/`HaveCoin` reads),
successful `AddCoin`, `SpendCoin`, `Uncache`, `BatchWrite` (successful or
not) and `Flush`; at the boundary where `AddCoin` fails with
`OverwriteUnspent`, however, the map is unchanged but the counter equals
the sum over the map minus the pre-existing entry's coin usage. -/
theorem usage_counter_rule (base : COutPoint → Option Coin)
    (bw : CCoinsMap → Nat → CNameCache → Bool) (st : CCoinsViewCache)
    (o : COutPoint) (c : Coin) (po : Bool)
    (child : List (COutPoint × CCoinsCacheEntry)) (hsh : Nat) (names : CNameCache)
    (h : usageOK st) :
    usageOK (fetchCoin base st o).2 ∧
    usageOK (getCoin base st o).2 ∧
    usageOK (haveCoin base st o).2 ∧
    ((addCoin st o c po).1 = none → usageOK (addCoin st o c po).2) ∧
    ((addCoin st o c po).1 = some CoinsError.overwriteUnspent →
      (addCoin st o c po).2.cacheCoins = st.cacheCoins ∧
      ∃ e, mfind o st.cacheCoins = some e ∧
        (addCoin st o c po).2.cachedCoinsUsage
          = totalCoinUsage (addCoin st o c po).2.cacheCoins
              - e.coin.DynamicMemoryUsage) ∧
    usageOK (spendCoin base st o).2 ∧
    usageOK (uncache st o) ∧
    usageOK (batchWrite st child hsh names).2 ∧
    usageOK (flush bw st).2 := by
  refine ⟨fetchCoin_usage base st o h, ?_, ?_,
    fun hok => addCoin_usage_ok st o c po h hok, ?_,
    spendCoin_usage base st o h, uncache_usage st o h,
    batchWrite_usage st child hsh names h, flush_usage bw st h⟩
  · rw [getCoin_state]
    exact fetchCoin_usage base st o h
  · rw [haveCoin_state]
    exact fetchCoin_usage base st o h
  · intro herr
    obtain ⟨hmap, e, hm, husage⟩ := addCoin_usage_err st o c po herr
    refine ⟨hmap, e, hm, ?_⟩
    rw [husage, hmap, ← h]

/-- C6, witness: the amended invariant at concrete states: preserved by a
fetch and by a successful add on the empty cache, and by a spend on the
live cache. -/
theorem usage_counter_rule_witness :
    usageOK (fetchCoin baseNone stEmpty oA).2 ∧
    usageOK (addCoin stEmpty oA cA false).2 ∧
    usageOK (spendCoin baseNone stLiveA oA).2 :=
  ⟨(usage_counter_rule baseNone (fun _ _ _ => true) stEmpty oA cA false [] 0
      CNameCache.emptyCache (by decide)).1,
   (usage_counter_rule baseNone (fun _ _ _ => true) stEmpty oA cA false [] 0
      CNameCache.emptyCache (by decide)).2.2.2.1 (by decide),
   (usage_counter_rule baseNone (fun _ _ _ => true) stLiveA oA cA false [] 0
      CNameCache.emptyCache (by decide)).2.2.2.2.2.1⟩

/-! ### Claim C7 (no entry is both FRESH and spent) -/

/-- Invariant 3 of the spec over a coins map: no entry is simultaneously
flagged FRESH and holding a spent coin. -/
def mapNoFreshSpent (m : CCoinsMap) : Prop :=
  ∀ pe ∈ m, pe.2.fresh = true → pe.2.coin.IsSpent = false

/-- Invariant 3 over a cache state. -/
def noFreshSpent (st : CCoinsViewCache) : Prop := mapNoFreshSpent st.cacheCoins

instance (m : CCoinsMap) : Decidable (mapNoFreshSpent m) := by
  unfold mapNoFreshSpent; infer_instance

instance (st : CCoinsViewCache) : Decidable (noFreshSpent st) := by
  unfold noFreshSpent; infer_instance

/-- The parent-view contract upheld by every view in the repository:
`GetCoin` returning true delivers a live coin (the cached view returns
`!coin.IsSpent()`, and the database never stores spent coins). -/
def liveBase (base : COutPoint → Option Coin) : Prop :=
  ∀ p c', base p = some c' → c'.IsSpent = false

theorem mapNoFreshSpent_minsert {m : CCoinsMap} {o : COutPoint} {e : CCoinsCacheEntry}
    (hm : mapNoFreshSpent m) (he : e.fresh = true → e.coin.IsSpent = false) :
    mapNoFreshSpent (minsert o e m) := by
  intro pe hmem hf
  rcases mem_minsert hmem with h' | h'
  · subst h'
    exact he hf
  · exact hm pe h' hf

theorem mapNoFreshSpent_merase {m : CCoinsMap} {o : COutPoint}
    (hm : mapNoFreshSpent m) : mapNoFreshSpent (merase o m) :=
  fun pe hmem hf => hm pe (mem_merase hmem) hf

theorem fetchCoin_nfs (base : COutPoint → Option Coin) (st : CCoinsViewCache)
    (o : COutPoint) (hlb : liveBase base) (h : noFreshSpent st) :
    noFreshSpent (fetchCoin base st o).2 := by
  unfold noFreshSpent at h ⊢
  unfold fetchCoin
  rcases hm : mfind o st.cacheCoins with _ | e
  · rcases hb : base o with _ | tmp
    · exact h
    · show mapNoFreshSpent
        (minsert o { coin := tmp, dirty := false, fresh := tmp.IsSpent } st.cacheCoins)
      refine mapNoFreshSpent_minsert h ?_
      intro hf
      rw [hlb o tmp hb] at hf
      exact Bool.noConfusion hf
  · exact h

theorem addCoin_nfs (st : CCoinsViewCache) (o : COutPoint) (c : Coin) (po : Bool)
    (h : noFreshSpent st) : noFreshSpent (addCoin st o c po).2 := by
  unfold noFreshSpent at h ⊢
  by_cases hcs : c.IsSpent = true
  · have hres : (addCoin st o c po).2 = st := by
      simp [addCoin, hcs]
    rw [hres]
    exact h
  · have hcs' : c.IsSpent = false := by
      simp only [Bool.not_eq_true] at hcs
      exact hcs
    by_cases hu : CScript.IsUnspendable c.out.scriptPubKey = true
    · have hres : (addCoin st o c po).2 = st := by
        simp [addCoin, hcs', hu]
      rw [hres]
      exact h
    · have hu' : CScript.IsUnspendable c.out.scriptPubKey = false := by
        simp only [Bool.not_eq_true] at hu
        exact hu
      rcases hm : mfind o st.cacheCoins with _ | it
      · have hres : (addCoin st o c po).2.cacheCoins
            = minsert o { coin := c, dirty := true, fresh := !po } st.cacheCoins := by
          simp [addCoin, hcs', hu', hm]
        rw [hres]
        exact mapNoFreshSpent_minsert h (fun _ => hcs')
      · by_cases herr : po = false ∧ it.coin.IsSpent = false
        · have hres : (addCoin st o c po).2.cacheCoins = st.cacheCoins := by
            simp [addCoin, hcs', hu', hm, herr]
          rw [hres]
          exact h
        · have hres : (addCoin st o c po).2.cacheCoins
              = minsert o
                  { coin := c, dirty := true, fresh := it.fresh || (!po && !it.dirty) }
                  st.cacheCoins := by
            simp [addCoin, hcs', hu', hm, herr]
          rw [hres]
          exact mapNoFreshSpent_minsert h (fun _ => hcs')

theorem spendCoin_nfs (base : COutPoint → Option Coin) (st : CCoinsViewCache)
    (o : COutPoint) (hlb : liveBase base) (h : noFreshSpent st) :
    noFreshSpent (spendCoin base st o).2 := by
  rcases hf : fetchCoin base st o with ⟨eo, st'⟩
  have h' : noFreshSpent st' := by
    have hfn := fetchCoin_nfs base st o hlb h
    rw [hf] at hfn
    exact hfn
  unfold noFreshSpent at h'
  unfold noFreshSpent
  cases eo with
  | none =>
    have hres : (spendCoin base st o).2 = st' := by
      simp [spendCoin, hf]
    rw [hres]
    exact h'
  | some e =>
    by_cases hfr : e.fresh = true
    · have hres : (spendCoin base st o).2.cacheCoins = merase o st'.cacheCoins := by
        simp [spendCoin, hf, hfr]
      rw [hres]
      exact mapNoFreshSpent_merase h'
    · have hfr' : e.fresh = false := by
        simp only [Bool.not_eq_true] at hfr
        exact hfr
      have hres : (spendCoin base st o).2.cacheCoins
          = minsert o { coin := e.coin.Clear, dirty := true, fresh := false }
              st'.cacheCoins := by
        simp [spendCoin, hf, hfr']
      rw [hres]
      exact mapNoFreshSpent_minsert h' (fun hf0 => Bool.noConfusion hf0)

theorem uncache_nfs (st : CCoinsViewCache) (o : COutPoint) (h : noFreshSpent st) :
    noFreshSpent (uncache st o) := by
  unfold noFreshSpent at h
  unfold noFreshSpent
  rcases hm : mfind o st.cacheCoins with _ | e
  · have hres : uncache st o = st := by
      simp [uncache, hm]
    rw [hres]
    exact h
  · by_cases hc : e.dirty = false ∧ e.fresh = false
    · have hres : (uncache st o).cacheCoins = merase o st.cacheCoins := by
        simp [uncache, hm, hc.1, hc.2]
      rw [hres]
      exact mapNoFreshSpent_merase h
    · have hres : uncache st o = st := by
        simp [uncache, hm, hc]
      rw [hres]
      exact h

theorem batchWriteStep_nfs (st : CCoinsViewCache) (p : COutPoint)
    (e : CCoinsCacheEntry) (h : noFreshSpent st) :
    noFreshSpent (batchWriteStep st p e).2 := by
  unfold noFreshSpent at h
  unfold noFreshSpent
  by_cases hd : e.dirty = false
  · have hres : (batchWriteStep st p e).2 = st := by
      simp [batchWriteStep, hd]
    rw [hres]
    exact h
  · rcases hm : mfind p st.cacheCoins with _ | us
    · by_cases hc : (e.fresh && e.coin.IsSpent) = true
      · have hres : (batchWriteStep st p e).2 = st := by
          simp [batchWriteStep, hd, hm, hc]
        rw [hres]
        exact h
      · have hres : (batchWriteStep st p e).2.cacheCoins
            = minsert p { coin := e.coin, dirty := true, fresh := e.fresh }
                st.cacheCoins := by
          simp [batchWriteStep, hd, hm, hc]
        rw [hres]
        refine mapNoFreshSpent_minsert h ?_
        intro hf
        cases hsp2 : e.coin.IsSpent with
        | false => rfl
        | true => exact absurd (by rw [hf, hsp2]; rfl : (e.fresh && e.coin.IsSpent) = true) hc
    · by_cases hc1 : (e.fresh && !us.coin.IsSpent) = true
      · have hres : (batchWriteStep st p e).2 = st := by
          simp [batchWriteStep, hd, hm, hc1]
        rw [hres]
        exact h
      · by_cases hc2 : (us.fresh && e.coin.IsSpent) = true
        · have hres : (batchWriteStep st p e).2.cacheCoins = merase p st.cacheCoins := by
            simp [batchWriteStep, hd, hm, hc1, hc2]
          rw [hres]
          exact mapNoFreshSpent_merase h
        · have hres : (batchWriteStep st p e).2.cacheCoins
              = minsert p { coin := e.coin, dirty := true, fresh := us.fresh }
                  st.cacheCoins := by
            simp [batchWriteStep, hd, hm, hc1, hc2]
          rw [hres]
          refine mapNoFreshSpent_minsert h ?_
          intro hf
          cases hsp2 : e.coin.IsSpent with
          | false => rfl
          | true => exact absurd (by rw [hf, hsp2]; rfl : (us.fresh && e.coin.IsSpent) = true) hc2

theorem batchWriteLoop_nfs (child : List (COutPoint × CCoinsCacheEntry)) :
    ∀ st : CCoinsViewCache, noFreshSpent st → noFreshSpent (batchWriteLoop st child).2 := by
  induction child with
  | nil => intro st h; exact h
  | cons pe rest ih =>
    intro st h
    obtain ⟨p, e⟩ := pe
    have hstep := batchWriteStep_nfs st p e h
    unfold batchWriteLoop
    rcases hs : batchWriteStep st p e with ⟨err, st'⟩
    rw [hs] at hstep
    cases err with
    | none => exact ih st' hstep
    | some e0 => exact hstep

theorem batchWrite_nfs (st : CCoinsViewCache)
    (child : List (COutPoint × CCoinsCacheEntry)) (hsh : Nat) (names : CNameCache)
    (h : noFreshSpent st) : noFreshSpent (batchWrite st child hsh names).2 := by
  have hloop := batchWriteLoop_nfs child st h
  unfold batchWrite
  rcases hl : batchWriteLoop st child with ⟨err, st'⟩
  rw [hl] at hloop
  cases err with
  | none => exact hloop
  | some e0 => exact hloop

theorem flush_nfs (bw : CCoinsMap → Nat → CNameCache → Bool) (st : CCoinsViewCache)
    (h : noFreshSpent st) : noFreshSpent (flush bw st).2 := by
  unfold flush
  split
  · exact h
  · intro pe hmem
    exact absurd hmem (List.not_mem_nil pe)

/-- C7: over a parent view that only ever reports live coins (the
contract of every view in the repository), invariant 3 — no map entry is
simultaneously FRESH and spent — is preserved by every public operation:
fetch-triggered reads (`GetCoin`, `HaveCoin`), `AddCoin` (successful or
failing), `SpendCoin` (whose eager erase removes the FRESH entry rather
than storing it spent), `Uncache`, `BatchWrite` and `Flush`. -/
theorem no_fresh_spent_invariant (base : COutPoint → Option Coin)
    (bw : CCoinsMap → Nat → CNameCache → Bool) (st : CCoinsViewCache)
    (o : COutPoint) (c : Coin) (po : Bool)
    (child : List (COutPoint × CCoinsCacheEntry)) (hsh : Nat) (names : CNameCache)
    (hlb : liveBase base) (h : noFreshSpent st) :
    noFreshSpent (fetchCoin base st o).2 ∧
    noFreshSpent (getCoin base st o).2 ∧
    noFreshSpent (haveCoin base st o).2 ∧
    noFreshSpent (addCoin st o c po).2 ∧
    noFreshSpent (spendCoin base st o).2 ∧
    noFreshSpent (uncache st o) ∧
    noFreshSpent (batchWrite st child hsh names).2 ∧
    noFreshSpent (flush bw st).2 := by
  refine ⟨fetchCoin_nfs base st o hlb h, ?_, ?_, addCoin_nfs st o c po h,
    spendCoin_nfs base st o hlb h, uncache_nfs st o h,
    batchWrite_nfs st child hsh names h, flush_nfs bw st h⟩
  · rw [getCoin_state]
    exact fetchCoin_nfs base st o hlb h
  · rw [haveCoin_state]
    exact fetchCoin_nfs base st o hlb h

theorem liveBase_baseLiveA : liveBase baseLiveA := by
  intro p c' hpc
  unfold baseLiveA at hpc
  by_cases hp : p = oA
  · rw [if_pos hp] at hpc
    have hc : c' = cA := (Option.some.inj hpc).symm
    rw [hc]
    decide
  · rw [if_neg hp] at hpc
    exact Option.noConfusion hpc

/-- C7, witness: the invariant at concrete states — preserved across a
fetch from a live parent, a fresh add, and a spend of a live cached coin. -/
theorem no_fresh_spent_invariant_witness :
    noFreshSpent (fetchCoin baseLiveA stEmpty oA).2 ∧
    noFreshSpent (addCoin stEmpty oA cA false).2 ∧
    noFreshSpent (spendCoin baseLiveA stLiveA oA).2 :=
  ⟨(no_fresh_spent_invariant baseLiveA (fun _ _ _ => true) stEmpty oA cA false [] 0
      CNameCache.emptyCache liveBase_baseLiveA (by decide)).1,
   (no_fresh_spent_invariant baseLiveA (fun _ _ _ => true) stEmpty oA cA false [] 0
      CNameCache.emptyCache liveBase_baseLiveA (by decide)).2.2.2.1,
   (no_fresh_spent_invariant baseLiveA (fun _ _ _ => true) stLiveA oA cA false [] 0
      CNameCache.emptyCache liveBase_baseLiveA (by decide)).2.2.2.2.1⟩

/-! ### Claim C8 (SetName undo inverse) -/

/-- C8: for a name with prior record `old` and an expire index consistent
with it, `SetName(n, d, undo := false)` followed by
`SetName(n, old, undo := true)` restores the observable name state: the
forward call pushes the replaced value `old` onto the history, the undo
call pops it (its pop assertion succeeding, so the call returns a state
rather than failing), and afterwards the entries lookup, the effective
history stack and the effective expire index agree with the pre-sequence
state at every name and height. -/
theorem setName_undo_roundtrip (baseName : Name → Option CNameData)
    (baseHist : Name → Option CNameHistory) (baseExp : Nat → Name → Bool)
    (st : CCoinsViewCache) (n : Name) (d old : CNameData)
    (hold : getNameView baseName st n = some old)
    (hexp1 : expiresAt baseExp st old.getHeight n = true)
    (hexp2 : d.getHeight ≠ old.getHeight → expiresAt baseExp st d.getHeight n = false) :
    ∃ st1 st2,
      setName true baseName baseHist st n d false = some st1 ∧
      nameHistoryOf baseHist st1 n
        = CNameHistory.push (nameHistoryOf baseHist st n) old ∧
      setName true baseName baseHist st1 n old true = some st2 ∧
      (∀ m, getNameView baseName st2 m = getNameView baseName st m) ∧
      (∀ m, nameHistoryOf baseHist st2 m = nameHistoryOf baseHist st m) ∧
      (∀ h m, expiresAt baseExp st2 h m = expiresAt baseExp st h m) := by
  refine ⟨{ st with cacheNames :=
      { entries := minsert n (some d) st.cacheNames.entries,
        history := minsert n (CNameHistory.push (nameHistoryOf baseHist st n) old)
          st.cacheNames.history,
        expireIndex := minsert (d.getHeight, n) true
          (minsert (old.getHeight, n) false st.cacheNames.expireIndex) } },
    { st with cacheNames :=
      { entries := minsert n (some old) (minsert n (some d) st.cacheNames.entries),
        history := minsert n (nameHistoryOf baseHist st n)
          (minsert n (CNameHistory.push (nameHistoryOf baseHist st n) old)
            st.cacheNames.history),
        expireIndex := minsert (old.getHeight, n) true
          (minsert (d.getHeight, n) false
            (minsert (d.getHeight, n) true
              (minsert (old.getHeight, n) false st.cacheNames.expireIndex))) } },
    ?_, ?_, ?_, ?_, ?_, ?_⟩
  · simp [setName, hold, nameHistoryOf, getNameHistoryView, CNameCache.getHistory,
      CNameCache.setHistory, CNameCache.set, CNameCache.addExpireIndex,
      CNameCache.removeExpireIndex, CNameHistory.push]
  · simp [nameHistoryOf, getNameHistoryView, CNameCache.getHistory, mfind_minsert_self,
      CNameHistory.push]
  · simp [setName, getNameView, CNameCache.isDeleted, CNameCache.get,
      mfind_minsert_self, nameHistoryOf, getNameHistoryView, CNameCache.getHistory,
      CNameCache.setHistory, CNameCache.set, CNameCache.addExpireIndex,
      CNameCache.removeExpireIndex, CNameHistory.push, CNameHistory.pop]
  · intro m
    by_cases hm : m = n
    · subst hm
      rw [hold]
      simp [getNameView, CNameCache.isDeleted, CNameCache.get, mfind_minsert_self]
    · have he2 : mfind m (minsert n (some old)
          (minsert n (some d) st.cacheNames.entries)) = mfind m st.cacheNames.entries := by
        rw [mfind_minsert_ne _ _ _ _ hm, mfind_minsert_ne _ _ _ _ hm]
      simp [getNameView, CNameCache.isDeleted, CNameCache.get, he2]
  · intro m
    by_cases hm : m = n
    · subst hm
      simp [nameHistoryOf, getNameHistoryView, CNameCache.getHistory, mfind_minsert_self]
    · have he2 : ∀ a b : CNameHistory,
          mfind m (minsert n a (minsert n b st.cacheNames.history))
            = mfind m st.cacheNames.history := by
        intro a b
        rw [mfind_minsert_ne _ _ _ _ hm, mfind_minsert_ne _ _ _ _ hm]
      simp [nameHistoryOf, getNameHistoryView, CNameCache.getHistory, he2]
  · intro h m
    by_cases hm : m = n
    · subst hm
      by_cases ho : h = old.getHeight
      · subst ho
        rw [hexp1]
        simp [expiresAt, CNameCache.updateExpire, mfind_minsert_self]
      · have hne1 : ((h, m) : Nat × Name) ≠ (old.getHeight, m) :=
          fun hh => ho (congrArg Prod.fst hh)
        by_cases hd2 : h = d.getHeight
        · subst hd2
          rw [hexp2 (fun hh => ho hh)]
          simp [expiresAt, CNameCache.updateExpire, mfind_minsert_ne _ _ _ _ hne1,
            mfind_minsert_self]
        · have hne2 : ((h, m) : Nat × Name) ≠ (d.getHeight, m) :=
            fun hh => hd2 (congrArg Prod.fst hh)
          simp only [expiresAt, CNameCache.updateExpire,
            mfind_minsert_ne _ _ _ _ hne1, mfind_minsert_ne _ _ _ _ hne2]
    · have hne : ∀ x : Nat, ((h, m) : Nat × Name) ≠ (x, n) :=
        fun x hh => hm (congrArg Prod.snd hh)
      simp only [expiresAt, CNameCache.updateExpire,
        mfind_minsert_ne _ _ _ _ (hne old.getHeight),
        mfind_minsert_ne _ _ _ _ (hne d.getHeight)]

/-- A sample name. -/
def n0 : Name := [7]

/-- The prior record for `n0`, at height 5. -/
def old0 : CNameData := { value := [1], nHeight := 5, prevout := oA }

/-- The forward update for `n0`, at height 9. -/
def d0 : CNameData := { value := [2], nHeight := 9, prevout := oA }

/-- A parent name view holding `old0` at `n0`. -/
def baseN : Name → Option CNameData := fun m => if m = n0 then some old0 else none

/-- A parent with no name histories. -/
def baseH : Name → Option CNameHistory := fun _ => none

/-- A parent expire index consistent with `old0` at `n0`. -/
def baseE : Nat → Name → Bool := fun h m => decide (h = 5 ∧ m = n0)

/-- C8, witness: the round-trip at the concrete state: empty cache over a
parent holding `old0` for `n0` at height 5 with a consistent expire
index. -/
theorem setName_undo_roundtrip_witness :
    ∃ st1 st2,
      setName true baseN baseH stEmpty n0 d0 false = some st1 ∧
      nameHistoryOf baseH st1 n0
        = CNameHistory.push (nameHistoryOf baseH stEmpty n0) old0 ∧
      setName true baseN baseH st1 n0 old0 true = some st2 ∧
      (∀ m, getNameView baseN st2 m = getNameView baseN stEmpty m) ∧
      (∀ m, nameHistoryOf baseH st2 m = nameHistoryOf baseH stEmpty m) ∧
      (∀ h m, expiresAt baseE st2 h m = expiresAt baseE stEmpty h m) :=
  setName_undo_roundtrip baseN baseH baseE stEmpty n0 d0 old0
    (by decide) (by decide) (by decide)

end CoinsSpec
